import Mathlib

set_option maxRecDepth 8000

namespace Fusedrive

/-! Shallow embedding of the fusedrive repository: the metadata store
(package metadb, src/unnamed/part_008 and src/metadb/db.go), the FUSE front
end (src/drive_filesystem.go, src/drive_file.go), the local write cache
(LocalFileCache, src/unnamed/part_008), the upload queue (src/api/syncer.go)
and the ranged reader (src/api/file_reader.go, src/unnamed/part_002). -/

/-- Bytes are modelled as natural numbers; the serialiser only emits values
below 256. -/
abbrev Byte := Nat

/-- Go strings are byte sequences; database keys are paths. Path bytes are
modelled as characters; the only byte the code inspects is the separator,
which is a single-byte character, so character level equals byte level. -/
abbrev FsPath := List Char

/-- metadb.Attributes (src/unnamed/part_008:44-60) describes a node on the
filesystem. The id is kept as raw bytes. Bolt stores the serialised bytes of
the record; by the round-trip theorem below the embedding keeps the records
themselves. -/
structure Attributes where
  id : List Byte
  size : Nat
  isRegularFile : Bool
  mode : Nat
  hasContent : Bool
  deriving DecidableEq

/-- Little-endian encoding of v into n bytes, as binary.Write does for a
Go unsigned integer of n bytes (higher bits are discarded, matching the Go
integer conversion). -/
def toLE : Nat → Nat → List Byte
  | 0, _ => []
  | n + 1, v => v % 256 :: toLE n (v / 256)

/-- Little-endian decoding of a byte list, as binary.Read does for a Go
unsigned integer. -/
def fromLE : List Byte → Nat
  | [] => 0
  | b :: rest => b + 256 * fromLE rest

/-- binary.Write encodes a Go bool as one byte, 1 for true and 0 for false. -/
def boolByte (b : Bool) : Byte := if b then 1 else 0

/-- binary.Read decodes a Go bool as byte-is-nonzero. -/
def byteBool (b : Byte) : Bool := b != 0

/-- writeAttributes (src/unnamed/part_008:72-95): write u32 id_len, the id
bytes, u64 size, u8 is_regular_file, u32 mode, u8 has_content, in this
order, appending each field to the buffer. -/
def writeAttributes (a : Attributes) : List Byte :=
  let buf := toLE 4 a.id.length
  let buf := buf ++ a.id
  let buf := buf ++ toLE 8 a.size
  let buf := buf ++ [boolByte a.isRegularFile]
  let buf := buf ++ toLE 4 a.mode
  buf ++ [boolByte a.hasContent]

/-- io.ReadFull of n bytes from a stream: succeeds only when the input holds
at least n bytes, returning them and the remaining input. -/
def takeExact (n : Nat) (l : List Byte) : Option (List Byte × List Byte) :=
  if n ≤ l.length then some (l.take n, l.drop n) else none

/-- readAttributes (src/unnamed/part_008:98-126): parse the fields in the
order they were written; any short read is an error (none). -/
def readAttributes (l : List Byte) : Option Attributes := do
  let (lenB, l) ← takeExact 4 l
  let (id, l) ← takeExact (fromLE lenB) l
  let (sizeB, l) ← takeExact 8 l
  let (regB, l) ← takeExact 1 l
  let (modeB, l) ← takeExact 4 l
  let (hasB, _) ← takeExact 1 l
  pure { id := id, size := fromLE sizeB,
         isRegularFile := byteBool (regB.headD 0),
         mode := fromLE modeB, hasContent := byteBool (hasB.headD 0) }

theorem toLE_length (n v : Nat) : (toLE n v).length = n := by
  induction n generalizing v with
  | zero => rfl
  | succ n ih => simp [toLE, ih]

theorem fromLE_toLE (n v : Nat) (h : v < 256 ^ n) : fromLE (toLE n v) = v := by
  induction n generalizing v with
  | zero =>
    have : v = 0 := Nat.lt_one_iff.mp (by simpa using h)
    simp [this, toLE, fromLE]
  | succ n ih =>
    have hdiv : v / 256 < 256 ^ n := by
      rw [Nat.div_lt_iff_lt_mul (by norm_num : 0 < 256)]
      calc v < 256 ^ (n + 1) := h
        _ = 256 ^ n * 256 := by ring
    simp only [toLE, fromLE, ih (v / 256) hdiv]
    exact Nat.mod_add_div v 256

theorem takeExact_append (l r : List Byte) (n : Nat) (h : l.length = n) :
    takeExact n (l ++ r) = some (l, r) := by
  subst h
  simp [takeExact, List.take_left, List.drop_left]

theorem byteBool_boolByte (b : Bool) : byteBool (boolByte b) = b := by
  cases b <;> decide

theorem optBind_some (x : α) (f : α → Option β) : (some x >>= f : Option β) = f x := rfl

/-- Claim C7: serialising then deserialising yields the identical Attributes
record, for every record whose fields fit the wire widths (id length in u32,
size in u64, mode in u32); the serialised layout is u32 id_len, id bytes,
u64 size, u8 is_regular_file, u32 mode, u8 has_content, little-endian, with
booleans one byte, zero being false. -/
theorem C7_attributes_roundtrip (a : Attributes)
    (hid : a.id.length < 256 ^ 4) (hsize : a.size < 256 ^ 8)
    (hmode : a.mode < 256 ^ 4) :
    readAttributes (writeAttributes a) = some a ∧
    writeAttributes a = toLE 4 a.id.length ++ a.id ++ toLE 8 a.size ++
      [boolByte a.isRegularFile] ++ toLE 4 a.mode ++ [boolByte a.hasContent] := by
  constructor
  · have hbuf : writeAttributes a = toLE 4 a.id.length ++ (a.id ++ (toLE 8 a.size ++
        ([boolByte a.isRegularFile] ++ (toLE 4 a.mode ++ [boolByte a.hasContent])))) := by
      simp [writeAttributes, List.append_assoc]
    rw [readAttributes, hbuf]
    rw [takeExact_append _ _ 4 (toLE_length 4 a.id.length)]
    simp only [optBind_some]
    rw [fromLE_toLE 4 a.id.length hid]
    rw [takeExact_append _ _ a.id.length rfl]
    simp only [optBind_some]
    rw [takeExact_append _ _ 8 (toLE_length 8 a.size)]
    simp only [optBind_some]
    rw [takeExact_append [boolByte a.isRegularFile] _ 1 rfl]
    simp only [optBind_some]
    rw [takeExact_append _ _ 4 (toLE_length 4 a.mode)]
    simp only [optBind_some]
    rw [show takeExact 1 [boolByte a.hasContent] =
      some ([boolByte a.hasContent], []) from takeExact_append [boolByte a.hasContent] [] 1 rfl]
    simp only [optBind_some, Option.pure_def]
    congr 1
    cases a with
    | mk id size reg mode has =>
      simp [fromLE_toLE 8 size hsize, fromLE_toLE 4 mode hmode, byteBool_boolByte]
  · simp [writeAttributes, List.append_assoc]

/-- Concrete witness record for the round-trip theorem. -/
def attrW : Attributes := ⟨[7, 0, 255], 1234, true, 420, false⟩

/-- Witness for claim C7 at a concrete record. -/
theorem C7_attributes_roundtrip_witness :
    readAttributes (writeAttributes attrW) = some attrW ∧
    writeAttributes attrW = toLE 4 attrW.id.length ++ attrW.id ++
      toLE 8 attrW.size ++ [boolByte attrW.isRegularFile] ++
      toLE 4 attrW.mode ++ [boolByte attrW.hasContent] :=
  C7_attributes_roundtrip attrW (by decide) (by decide) (by decide)


/-! The bolt paths bucket (src/unnamed/part_008:22-23). It is modelled as an
association list from path to Attributes; bolt keeps one value per key, so
stores built by the operations have pairwise distinct keys. Bolt stores the
serialised record bytes; since serialisation round-trips (theorem
C7_attributes_roundtrip), the embedding keeps the records themselves. The
order of entries in the list abstracts the key-sorted order of the bolt
cursor; every theorem below reads the store through storeGet or speaks about
membership of the returned slice, so it is insensitive to this order. -/

abbrev Store := List (FsPath × Attributes)

/-- bolt Bucket.Get: the value stored at key k, if any. -/
def storeGet (s : Store) (k : FsPath) : Option Attributes :=
  (s.find? (fun e => e.1 == k)).map (fun e => e.2)

/-- bolt Bucket.Delete: remove the value stored at key k. -/
def storeDelete (s : Store) (k : FsPath) : Store :=
  s.filter (fun e => e.1 != k)

/-- bolt Bucket.Put: replace or insert the value stored at key k (position of
the inserted entry abstracted, see the Store comment). -/
def storePut (s : Store) (k : FsPath) (v : Attributes) : Store :=
  (k, v) :: storeDelete s k

theorem storeGet_nil (k : FsPath) : storeGet [] k = none := rfl

theorem storeGet_cons (e : FsPath × Attributes) (s : Store) (k : FsPath) :
    storeGet (e :: s) k = if e.1 = k then some e.2 else storeGet s k := by
  by_cases h : e.1 = k <;> simp [storeGet, List.find?_cons, h]

theorem storeDelete_cons (e : FsPath × Attributes) (s : Store) (k : FsPath) :
    storeDelete (e :: s) k =
      if e.1 = k then storeDelete s k else e :: storeDelete s k := by
  by_cases h : e.1 = k <;> simp [storeDelete, List.filter_cons, h]

theorem storeGet_delete (s : Store) (k k' : FsPath) :
    storeGet (storeDelete s k) k' = if k' = k then none else storeGet s k' := by
  induction s with
  | nil =>
    rw [show storeDelete [] k = [] from rfl]
    split <;> rfl
  | cons e s ih =>
    rw [storeDelete_cons]
    by_cases h1 : e.1 = k
    · rw [if_pos h1, ih, storeGet_cons]
      by_cases h2 : k' = k
      · simp [h2]
      · rw [if_neg h2, if_neg h2, if_neg (fun hc => h2 (hc.symm.trans h1))]
    · rw [if_neg h1, storeGet_cons, storeGet_cons, ih]
      by_cases h2 : e.1 = k'
      · have h3 : ¬ k' = k := fun hc => h1 (h2.trans hc)
        rw [if_pos h2, if_neg h3, if_pos h2]
      · rw [if_neg h2, if_neg h2]

theorem storeGet_put (s : Store) (k : FsPath) (v : Attributes) (k' : FsPath) :
    storeGet (storePut s k v) k' = if k' = k then some v else storeGet s k' := by
  rw [storePut, storeGet_cons, storeGet_delete]
  by_cases h : k = k'
  · simp [h]
  · rw [if_neg h, if_neg (fun hc => h hc.symm), if_neg (fun hc => h hc.symm)]

/-- The error values DoesNotExist and AlreadyExists (src/unnamed/part_008:31-34). -/
inductive DbErr where
  | doesNotExist
  | alreadyExists
  deriving DecidableEq

/-- One entry returned by DB.List (src/unnamed/part_008:260-263): the path of
the child relative to the listed directory, plus its attributes. -/
structure Entry where
  path : FsPath
  attributes : Attributes
  deriving DecidableEq

abbrev Entries := List Entry

/-- The path separator byte. -/
def sepChar : Char := '/'

/-- strings.TrimPrefix(s, pre): remove the leading pre from s when present. -/
def trimPre (s pre : FsPath) : FsPath :=
  if pre.isPrefixOf s then s.drop pre.length else s

/-- DB.List (src/unnamed/part_008:265-314): scan the keys that start with
path; skip the key equal to path itself but record that it exists; strip the
path and one optional separator from each remaining key; skip it when the
remainder still holds a separator; return DoesNotExist when path is non-empty
and its own key was never seen. -/
def DB.List (s : Store) (path : FsPath) : Except DbErr Entries :=
  let hit := s.filter (fun e => path.isPrefixOf e.1)
  let entries := hit.filterMap (fun e =>
    if e.1 = path then none
    else
      let rel := trimPre (trimPre e.1 path) [sepChar]
      if rel.contains sepChar then none
      else some ⟨rel, e.2⟩)
  if path = [] ∨ hit.any (fun e => e.1 == path) then .ok entries
  else .error .doesNotExist

theorem isPre_iff (p k : FsPath) : p.isPrefixOf k = true ↔ ∃ t, k = p ++ t := by
  induction p generalizing k with
  | nil =>
    constructor
    · intro _
      exact ⟨k, rfl⟩
    · intro _
      cases k <;> rfl
  | cons c p ih =>
    cases k with
    | nil =>
      constructor
      · intro h
        rw [show (c :: p).isPrefixOf ([] : FsPath) = false from rfl] at h
        exact Bool.noConfusion h
      · rintro ⟨t, ht⟩
        simp at ht
    | cons d k =>
      rw [show (c :: p).isPrefixOf (d :: k) = (c == d && p.isPrefixOf k) from rfl]
      rw [Bool.and_eq_true, beq_iff_eq, ih]
      constructor
      · rintro ⟨rfl, t, rfl⟩
        exact ⟨t, rfl⟩
      · rintro ⟨t, ht⟩
        injection ht with h1 h2
        exact ⟨h1.symm, t, h2⟩

/-- Two prefixes of the same list are comparable. -/
theorem pre_total {p q k : FsPath} (hp : ∃ t, k = p ++ t) (hq : ∃ u, k = q ++ u) :
    (∃ w, q = p ++ w) ∨ (∃ w, p = q ++ w) := by
  obtain ⟨t, rfl⟩ := hp
  obtain ⟨u, hu⟩ := hq
  rcases List.append_eq_append_iff.mp hu with ⟨w, hw, _⟩ | ⟨w, hw, _⟩
  · exact Or.inl ⟨w, hw⟩
  · exact Or.inr ⟨w, hw⟩

/-- Strip one optional leading separator, as the second TrimPrefix call in
DB.List does. -/
def dropSep : FsPath → FsPath
  | [] => []
  | c :: t => if c = sepChar then t else c :: t

theorem trimPre_append (p t : FsPath) : trimPre (p ++ t) p = t := by
  have h : p.isPrefixOf (p ++ t) = true := (isPre_iff p (p ++ t)).mpr ⟨t, rfl⟩
  simp [trimPre, h, List.drop_left]

theorem trimPre_sep (t : FsPath) : trimPre t [sepChar] = dropSep t := by
  cases t with
  | nil => rfl
  | cons c t =>
    by_cases h : c = sepChar
    · simp [trimPre, dropSep, List.isPrefixOf, h]
    · simp [trimPre, dropSep, List.isPrefixOf, h, Ne.symm h]

theorem append_ne_self {p t : FsPath} (ht : t ≠ []) : p ++ t ≠ p := by
  intro hc
  apply ht
  have : p ++ t = p ++ [] := by simpa using hc
  simpa using this

/-- DB.List marks the listed directory as existing exactly when the empty
path is listed or the exact key is present in the store. -/
theorem list_exists_iff (s : Store) (p : FsPath) :
    (p = [] ∨ (s.filter (fun e => p.isPrefixOf e.1)).any (fun e => e.1 == p)) ↔
      (p = [] ∨ ∃ e ∈ s, e.1 = p) := by
  apply or_congr Iff.rfl
  rw [List.any_eq_true]
  constructor
  · rintro ⟨e, he, hbe⟩
    exact ⟨e, (List.mem_filter.mp he).1, by simpa using hbe⟩
  · rintro ⟨e, he, hep⟩
    refine ⟨e, List.mem_filter.mpr ⟨he, ?_⟩, by simpa using hep⟩
    show p.isPrefixOf e.1 = true
    rw [hep]
    exact (isPre_iff p p).mpr ⟨[], (List.append_nil p).symm⟩

/-- Claim C4 (amended): DB.List p returns exactly the entries built from the
keys of the form p ++ t with t non-empty, whose remainder after stripping one
optional leading separator from t holds no further separator; the key equal
to p itself is skipped; ancestors are absent, but a sibling key that merely
begins with the byte string p is returned as well (with remainder t, for
example entry b from key ab when listing a), and a key equal to p followed by
a bare separator yields an entry with empty name; a non-empty p with no
exactly matching key yields DoesNotExist, while the empty p always exists. -/
theorem C4_list_spec_amended (s : Store) (p : FsPath) :
    (∀ es, DB.List s p = .ok es →
      ∀ ent, ent ∈ es ↔ ∃ k a t, (k, a) ∈ s ∧ k = p ++ t ∧ t ≠ [] ∧
        (dropSep t).contains sepChar = false ∧ ent = ⟨dropSep t, a⟩) ∧
    (DB.List s p = .error .doesNotExist ↔ ¬ (p = [] ∨ ∃ e ∈ s, e.1 = p)) := by
  constructor
  · intro es hes ent
    simp only [DB.List] at hes
    split at hes
    · injection hes with hes
      subst hes
      rw [List.mem_filterMap]
      constructor
      · rintro ⟨e, he, hfe⟩
        have hmem := (List.mem_filter.mp he).1
        have hpre := (List.mem_filter.mp he).2
        obtain ⟨t, ht⟩ := (isPre_iff p e.1).mp hpre
        by_cases h1 : e.1 = p
        · rw [if_pos h1] at hfe
          exact Option.noConfusion hfe
        · rw [if_neg h1] at hfe
          have hrel : trimPre (trimPre e.1 p) [sepChar] = dropSep t := by
            rw [ht, trimPre_append, trimPre_sep]
          rw [hrel] at hfe
          by_cases h2 : (dropSep t).contains sepChar = true
          · rw [if_pos h2] at hfe
            exact Option.noConfusion hfe
          · rw [if_neg h2] at hfe
            injection hfe with hfe
            refine ⟨e.1, e.2, t, by simpa using hmem, ht, ?_, ?_, hfe.symm⟩
            · intro hte
              apply h1
              rw [ht, hte, List.append_nil]
            · exact Bool.eq_false_iff.mpr h2
      · rintro ⟨k, a, t, hmem, rfl, ht, hc, rfl⟩
        refine ⟨(p ++ t, a), ?_, ?_⟩
        · exact List.mem_filter.mpr ⟨hmem, (isPre_iff p (p ++ t)).mpr ⟨t, rfl⟩⟩
        · show (if (p ++ t, a).1 = p then none
            else if (trimPre (trimPre (p ++ t, a).1 p) [sepChar]).contains sepChar
              then none
              else some (Entry.mk (trimPre (trimPre (p ++ t, a).1 p) [sepChar]) (p ++ t, a).2)) =
            some (Entry.mk (dropSep t) a)
          have hrel : trimPre (trimPre (p ++ t) p) [sepChar] = dropSep t := by
            rw [trimPre_append, trimPre_sep]
          rw [if_neg (append_ne_self ht)]
          
          rw [show trimPre (trimPre ((p ++ t, a).1) p) [sepChar] = dropSep t from hrel]
          rw [if_neg (by rw [hc]; exact Bool.false_ne_true)]
    · exact Except.noConfusion hes
  · simp only [DB.List]
    split
    · rename_i h
      constructor
      · intro hcon
        exact Except.noConfusion hcon
      · intro hno
        exact absurd ((list_exists_iff s p).mp h) hno
    · rename_i h
      constructor
      · intro _
        exact fun hx => h ((list_exists_iff s p).mpr hx)
      · intro _
        rfl

def attrA : Attributes := ⟨[1], 10, true, 420, false⟩

def attrB : Attributes := ⟨[2], 20, true, 420, false⟩

/-- Claim C4 counterexample: with store keys a and ab, DB.List a returns the
entry named b built from the sibling key ab, which lies outside the directory
a; the claim asserts that such siblings are absent from the listing. -/
theorem C4_list_sibling_counterexample :
    DB.List [(['a'], attrA), (['a','b'], attrB)] ['a'] = .ok [⟨['b'], attrB⟩] := by
  rfl

/-- The fuse status codes returned by the DriveFileSystem front end; Eio
stands for the fuse EIO status. -/
inductive FuseStatus where
  | OK
  | ENOENT
  | EINVAL
  | Eio
  | ENOTEMPTY
  | ENOTDIR
  | ENODATA
  deriving DecidableEq

/-- The new key for a renamed entry: replace the oldName prefix by newName
(src/unnamed/part_008:371-372). -/
def renameKey (oldName newName k : FsPath) : FsPath :=
  newName ++ k.drop oldName.length

/-- One iteration of the rename cursor loop (src/unnamed/part_008:370-381):
Put(newKey, v) then Delete(k). -/
def renameStep (oldName newName : FsPath) (acc : Store) (e : FsPath × Attributes) : Store :=
  storeDelete (storePut acc (renameKey oldName newName e.1) e.2) e.1

/-- DB.Rename (src/unnamed/part_008:347-385): inside one write transaction,
fail with DoesNotExist when the old key is absent, with AlreadyExists when
the new key is present; otherwise rename every key carrying the old prefix.
The bolt cursor loop is modelled as a fold over the snapshot of the entries
whose key has oldName as prefix; this agrees with the live cursor whenever no
rewritten key lands back inside the scanned prefix range at or after the
cursor position; in particular it agrees under the main theorem hypothesis
that neither name is a prefix of the other, and it agrees on the concrete
counterexample below, where both rewritten keys sort before the cursor
positions at which they are written. -/
def DB.Rename (s : Store) (oldName newName : FsPath) : Except DbErr Store :=
  match storeGet s oldName with
  | none => .error .doesNotExist
  | some _ =>
    match storeGet s newName with
    | some _ => .error .alreadyExists
    | none =>
      .ok ((s.filter (fun e => oldName.isPrefixOf e.1)).foldl
        (renameStep oldName newName) s)

/-- DriveFileSystem.Rename (src/drive_filesystem.go:391-409): map DoesNotExist
to ENOENT and AlreadyExists to EINVAL. -/
def DriveFileSystem.Rename (s : Store) (oldName newName : FsPath) :
    FuseStatus × Store :=
  match DB.Rename s oldName newName with
  | .error .doesNotExist => (.ENOENT, s)
  | .error .alreadyExists => (.EINVAL, s)
  | .ok s2 => (.OK, s2)

theorem renameKey_of_under (oldName newName t : FsPath) :
    renameKey oldName newName (oldName ++ t) = newName ++ t := by
  rw [renameKey, List.drop_left]

theorem renameKey_inj (oldName newName : FsPath) {k1 k2 : FsPath}
    (h1 : ∃ t, k1 = oldName ++ t) (h2 : ∃ t, k2 = oldName ++ t)
    (he : renameKey oldName newName k1 = renameKey oldName newName k2) :
    k1 = k2 := by
  obtain ⟨t1, rfl⟩ := h1
  obtain ⟨t2, rfl⟩ := h2
  rw [renameKey_of_under, renameKey_of_under] at he
  have : t1 = t2 := by simpa using he
  rw [this]

/-- When neither path is a prefix of the other, no key that starts with
newName also starts with oldName. -/
theorem not_under_of_incomp {oldName newName : FsPath}
    (h1 : oldName.isPrefixOf newName = false)
    (h2 : newName.isPrefixOf oldName = false)
    (t : FsPath) : ¬ ∃ u, newName ++ t = oldName ++ u := by
  rintro ⟨u, hu⟩
  rcases pre_total ⟨u, hu⟩ ⟨t, rfl⟩ with ⟨w, hw⟩ | ⟨w, hw⟩
  · have := (isPre_iff oldName newName).mpr ⟨w, hw⟩
    rw [h1] at this
    exact Bool.noConfusion this
  · have := (isPre_iff newName oldName).mpr ⟨w, hw⟩
    rw [h2] at this
    exact Bool.noConfusion this

theorem storeGet_eq_some {s : Store} {k : FsPath} {v : Attributes}
    (h : storeGet s k = some v) : ∃ e, e ∈ s ∧ e.1 = k ∧ e.2 = v := by
  rw [storeGet] at h
  cases hf : s.find? (fun e => e.1 == k) with
  | none =>
    rw [hf] at h
    exact Option.noConfusion h
  | some e =>
    rw [hf] at h
    rw [show (some e).map (fun e => e.2) = some e.2 from rfl] at h
    injection h with h
    exact ⟨e, List.mem_of_find?_eq_some hf, by simpa using List.find?_some hf, h⟩

/-- After the rename loop, a key under the old prefix reads as deleted when it
was one of the renamed keys, and as before otherwise. -/
theorem foldl_renameStep_get_old (oldName newName : FsPath)
    (l : List (FsPath × Attributes)) (acc : Store) (k : FsPath)
    (hk : ∃ t, k = oldName ++ t)
    (hren : ∀ e ∈ l, ¬ ∃ t, renameKey oldName newName e.1 = oldName ++ t) :
    storeGet (l.foldl (renameStep oldName newName) acc) k =
      if l.any (fun e => e.1 == k) then none else storeGet acc k := by
  revert hren
  induction l generalizing acc with
  | nil =>
    intro _
    rw [List.foldl_nil, List.any_nil, if_neg Bool.false_ne_true]
  | cons e l ih =>
    intro hren
    rw [List.foldl_cons, List.any_cons]
    by_cases he : e.1 = k
    · have hstep : storeGet (renameStep oldName newName acc e) k = none := by
        rw [renameStep, storeGet_delete, if_pos he.symm]
      rw [ih (renameStep oldName newName acc e)
        (fun e2 he2 => hren e2 (List.mem_cons_of_mem _ he2))]
      have hR : (e.1 == k || l.any (fun x => x.1 == k)) = true := by simp [he]
      rw [if_pos hR]
      split
      · rfl
      · exact hstep
    · have hr : renameKey oldName newName e.1 ≠ k := by
        intro hc
        exact hren e (List.mem_cons_self e l) (hc.symm ▸ hk)
      have hstep : storeGet (renameStep oldName newName acc e) k = storeGet acc k := by
        rw [renameStep, storeGet_delete, if_neg (fun hc => he hc.symm), storeGet_put,
          if_neg (fun hc => hr hc.symm)]
      rw [ih (renameStep oldName newName acc e)
        (fun e2 he2 => hren e2 (List.mem_cons_of_mem _ he2)), hstep]
      have hbe : (e.1 == k) = false := by simp [he]
      rw [hbe, Bool.false_or]

/-- The rename loop leaves a key alone when it is neither a renamed source
key nor a renamed target key. -/
theorem foldl_renameStep_get_other (oldName newName : FsPath)
    (l : List (FsPath × Attributes)) (acc : Store) (k : FsPath)
    (hk : ∀ e ∈ l, renameKey oldName newName e.1 ≠ k ∧ e.1 ≠ k) :
    storeGet (l.foldl (renameStep oldName newName) acc) k = storeGet acc k := by
  revert hk
  induction l generalizing acc with
  | nil =>
    intro _
    rfl
  | cons e l ih =>
    intro hk
    rw [List.foldl_cons, ih (renameStep oldName newName acc e)
      (fun e2 h => hk e2 (List.mem_cons_of_mem _ h))]
    rw [renameStep, storeGet_delete,
      if_neg (fun hc => (hk e (List.mem_cons_self e l)).2 hc.symm), storeGet_put,
      if_neg (fun hc => (hk e (List.mem_cons_self e l)).1 hc.symm)]

/-- After the rename loop, the renamed image of a scanned key holds the value
the scanned key held in the snapshot. -/
theorem foldl_renameStep_get_new (oldName newName : FsPath)
    (l : List (FsPath × Attributes)) (acc : Store) (e0 : FsPath × Attributes)
    (k : FsPath)
    (hknotold : ¬ ∃ t, k = oldName ++ t)
    (hren0 : renameKey oldName newName e0.1 = k) :
    ((l.map (fun e => e.1)).Nodup) →
    (∀ e ∈ l, ∃ t, e.1 = oldName ++ t) →
    e0 ∈ l →
    storeGet (l.foldl (renameStep oldName newName) acc) k = some e0.2 := by
  induction l generalizing acc with
  | nil =>
    intro _ _ he0
    exact absurd he0 (List.not_mem_nil e0)
  | cons e l ih =>
    intro hnd hund he0
    rw [List.foldl_cons]
    have hkne : ∀ e2, e2 ∈ e :: l → e2.1 ≠ k := by
      intro e2 he2 hc
      exact hknotold (hc ▸ hund e2 he2)
    rcases List.mem_cons.mp he0 with he0 | he0
    · subst he0
      have hget : storeGet (renameStep oldName newName acc e0) k = some e0.2 := by
        rw [renameStep, storeGet_delete,
          if_neg (fun hc => hkne e0 (List.mem_cons_self e0 l) hc.symm), storeGet_put,
          if_pos hren0.symm]
      rw [foldl_renameStep_get_other oldName newName l _ k ?_, hget]
      intro e2 he2
      refine ⟨?_, hkne e2 (List.mem_cons_of_mem _ he2)⟩
      intro hc
      have he21 : e2.1 = e0.1 :=
        renameKey_inj oldName newName (hund e2 (List.mem_cons_of_mem _ he2))
          (hund e0 (List.mem_cons_self e0 l)) (hc.trans hren0.symm)
      have hnotin := (List.nodup_cons.mp hnd).1
      have hin : e0.1 ∈ l.map (fun e => e.1) := by
        rw [← he21]
        exact List.mem_map.mpr ⟨e2, he2, rfl⟩
      exact hnotin hin
    · exact ih (renameStep oldName newName acc e) (List.nodup_cons.mp hnd).2
        (fun e2 h => hund e2 (List.mem_cons_of_mem _ h)) he0

/-- Claim C3 (amended): rename fails with DoesNotExist (ENOENT) when the old
key is absent; otherwise it fails with AlreadyExists (EINVAL) when the new
key is present; otherwise, within one write transaction, it rewrites every
key having old as prefix to the same key with the prefix replaced by new and
deletes each old key (old itself included); provided neither path is a byte
string prefix of the other, afterwards get_attrs on old and on every
descendant old/x fails with not-found, and get_attrs(new/x) yields the
attributes that old/x had before. -/
theorem C3_rename_spec_amended (s : Store) (oldName newName : FsPath)
    (hnodup : (s.map (fun e => e.1)).Nodup) :
    (storeGet s oldName = none →
      DB.Rename s oldName newName = .error .doesNotExist ∧
      DriveFileSystem.Rename s oldName newName = (.ENOENT, s)) ∧
    (∀ a b, storeGet s oldName = some a → storeGet s newName = some b →
      DB.Rename s oldName newName = .error .alreadyExists ∧
      DriveFileSystem.Rename s oldName newName = (.EINVAL, s)) ∧
    (∀ a, storeGet s oldName = some a → storeGet s newName = none →
      oldName.isPrefixOf newName = false → newName.isPrefixOf oldName = false →
      ∃ s2, DB.Rename s oldName newName = .ok s2 ∧
        DriveFileSystem.Rename s oldName newName = (.OK, s2) ∧
        storeGet s2 oldName = none ∧
        (∀ x, storeGet s2 (oldName ++ sepChar :: x) = none) ∧
        (∀ x v, storeGet s (oldName ++ sepChar :: x) = some v →
          storeGet s2 (newName ++ sepChar :: x) = some v)) := by
  refine ⟨?_, ?_, ?_⟩
  · intro h
    have hdb : DB.Rename s oldName newName = .error .doesNotExist := by
      unfold DB.Rename
      rw [h]
    exact ⟨hdb, by unfold DriveFileSystem.Rename; rw [hdb]⟩
  · intro a b ha hb
    have hdb : DB.Rename s oldName newName = .error .alreadyExists := by
      unfold DB.Rename
      rw [ha, hb]
    exact ⟨hdb, by unfold DriveFileSystem.Rename; rw [hdb]⟩
  · intro a ha hnew h1 h2
    have hok : DB.Rename s oldName newName =
        .ok ((s.filter (fun e => oldName.isPrefixOf e.1)).foldl
          (renameStep oldName newName) s) := by
      unfold DB.Rename
      rw [ha, hnew]
    have hund : ∀ e ∈ s.filter (fun e => oldName.isPrefixOf e.1),
        ∃ t, e.1 = oldName ++ t := by
      intro e he
      exact (isPre_iff oldName e.1).mp (List.mem_filter.mp he).2
    have hren : ∀ e ∈ s.filter (fun e => oldName.isPrefixOf e.1),
        ¬ ∃ t, renameKey oldName newName e.1 = oldName ++ t := by
      intro e he hc
      obtain ⟨t, ht⟩ := hund e he
      rw [ht, renameKey_of_under] at hc
      exact not_under_of_incomp h1 h2 t hc
    have hnd : ((s.filter (fun e => oldName.isPrefixOf e.1)).map
        (fun e => e.1)).Nodup :=
      hnodup.sublist ((List.filter_sublist s).map (fun e => e.1))
    have hmemof : ∀ k v, storeGet s k = some v → (∃ t, k = oldName ++ t) →
        ∃ e, e ∈ s.filter (fun e => oldName.isPrefixOf e.1) ∧ e.1 = k ∧ e.2 = v := by
      intro k v hk hkt
      obtain ⟨e, hes, hek, hev⟩ := storeGet_eq_some hk
      refine ⟨e, List.mem_filter.mpr ⟨hes, ?_⟩, hek, hev⟩
      show oldName.isPrefixOf e.1 = true
      rw [hek]
      exact (isPre_iff oldName k).mpr hkt
    refine ⟨_, hok, by unfold DriveFileSystem.Rename; rw [hok], ?_, ?_, ?_⟩
    · rw [foldl_renameStep_get_old oldName newName _ s oldName
        ⟨[], (List.append_nil oldName).symm⟩ hren]
      obtain ⟨e, hemem, hek, _⟩ :=
        hmemof oldName a ha ⟨[], (List.append_nil oldName).symm⟩
      rw [if_pos (List.any_eq_true.mpr ⟨e, hemem, by simp [hek]⟩)]
    · intro x
      rw [foldl_renameStep_get_old oldName newName _ s _ ⟨sepChar :: x, rfl⟩ hren]
      by_cases hx : (s.filter (fun e => oldName.isPrefixOf e.1)).any
          (fun e => e.1 == oldName ++ sepChar :: x) = true
      · rw [if_pos hx]
      · rw [if_neg hx]
        cases hsx : storeGet s (oldName ++ sepChar :: x) with
        | none => rfl
        | some v =>
          obtain ⟨e, hemem, hek, _⟩ := hmemof _ v hsx ⟨sepChar :: x, rfl⟩
          exact absurd (List.any_eq_true.mpr ⟨e, hemem, by simp [hek]⟩) hx
    · intro x v hsx
      obtain ⟨e, hemem, hek, hev⟩ := hmemof _ v hsx ⟨sepChar :: x, rfl⟩
      have hres := foldl_renameStep_get_new oldName newName
        (s.filter (fun e => oldName.isPrefixOf e.1)) s e
        (newName ++ sepChar :: x) (not_under_of_incomp h1 h2 (sepChar :: x))
        (by rw [hek, renameKey_of_under]) hnd hund hemem
      rw [hres, hev]

/-- Claim C3 counterexample: in the store holding keys ab and abb/x, renaming
ab to a succeeds, and afterwards get_attrs on ab/x (a slash descendant of the
old name, written old/x in the claim with x the remainder) succeeds with the
attributes that abb/x held, where the claim requires not-found for every
descendant of the old name. The snapshot fold agrees here with the live bolt
cursor: the two written keys a and ab/x sort strictly before the cursor
positions ab and abb/x at which they are written, so the forward-moving
cursor never visits them. -/
theorem C3_rename_descendant_counterexample :
    (DB.Rename [(['a','b'], attrA), (['a','b','b','/','x'], attrB)]
        ['a','b'] ['a']).map
      (fun s2 => storeGet s2 ['a','b','/','x']) = .ok (some attrB) := by
  rfl

def s3w : Store := [(['a'], attrA), (['a','/','b'], attrB)]

/-- Witness for claim C3 at a concrete store: renaming a to z with a child
a/b present. -/
theorem C3_rename_spec_witness :
    ∃ s2, DB.Rename s3w ['a'] ['z'] = .ok s2 ∧
      DriveFileSystem.Rename s3w ['a'] ['z'] = (.OK, s2) ∧
      storeGet s2 ['a'] = none ∧
      (∀ x, storeGet s2 (['a'] ++ sepChar :: x) = none) ∧
      (∀ x v, storeGet s3w (['a'] ++ sepChar :: x) = some v →
        storeGet s2 (['z'] ++ sepChar :: x) = some v) :=
  (C3_rename_spec_amended s3w ['a'] ['z'] (by decide)).2.2 attrA rfl rfl rfl rfl

/-- The empty-id sentinel (src/drive_filesystem.go:191): 33 zero bytes,
meaning the file has no remote object yet. -/
def EmptyId : List Byte := List.replicate 33 0

/-- DB.GetAttributes (src/unnamed/part_008:210-228). -/
def DB.GetAttributes (s : Store) (p : FsPath) : Except DbErr Attributes :=
  match storeGet s p with
  | none => .error .doesNotExist
  | some a => .ok a

/-- DB.GetAndDeleteAttributes (src/unnamed/part_008:242-258): inside one
write transaction, read the record (DoesNotExist when absent) and delete the
key. -/
def DB.GetAndDeleteAttributes (s : Store) (p : FsPath) :
    Except DbErr (Attributes × Store) :=
  match storeGet s p with
  | none => .error .doesNotExist
  | some a => .ok (a, storeDelete s p)

/-- DB.IsDirectoryEmpty (src/unnamed/part_008:316-319): the listing has no
entries. -/
def DB.IsDirectoryEmpty (s : Store) (p : FsPath) : Except DbErr Bool :=
  (DB.List s p).map (fun es => es.isEmpty)

/-- The outcome of DriveFileSystem.Unlink: the fuse status, the store after
the call, and the ids for which a remote delete request was issued. -/
structure UnlinkResult where
  status : FuseStatus
  store : Store
  remoteDeletes : List (List Byte)
  deriving DecidableEq

/-- DriveFileSystem.Unlink (src/drive_filesystem.go:456-477): atomically get
and delete the metadata record (ENOENT when absent), then issue a remote
delete for the stored id unconditionally; remoteOk gives the outcome of the
remote call, and a failed remote delete yields EIO with the local record
already gone. -/
def DriveFileSystem.Unlink (s : Store) (remoteOk : List Byte → Bool)
    (name : FsPath) : UnlinkResult :=
  match DB.GetAndDeleteAttributes s name with
  | .error .doesNotExist => ⟨.ENOENT, s, []⟩
  | .error _ => ⟨.Eio, s, []⟩
  | .ok (a, s2) =>
    if remoteOk a.id then ⟨.OK, s2, [a.id]⟩ else ⟨.Eio, s2, [a.id]⟩

/-- DriveFileSystem.Rmdir (src/drive_filesystem.go:479-503): check the
listing first (ENOENT when the path does not exist, ENOTEMPTY when entries
exist), then get-and-delete the record, and only after the deletion test
whether the record was a regular file (ENOTDIR). The only error
DB.IsDirectoryEmpty produces in the model is DoesNotExist, which the code
maps to ENOENT; a failing get-and-delete leaves the zero-value attributes,
whose IsRegularFile is false, so the code falls through to EIO. -/
def DriveFileSystem.Rmdir (s : Store) (name : FsPath) : FuseStatus × Store :=
  match DB.IsDirectoryEmpty s name with
  | .error _ => (.ENOENT, s)
  | .ok empty =>
    if !empty then (.ENOTEMPTY, s)
    else
      match DB.GetAndDeleteAttributes s name with
      | .ok (a, s2) => if a.isRegularFile then (.ENOTDIR, s2) else (.OK, s2)
      | .error _ => (.Eio, s)

/-- Claim C5 (amended): unlink atomically reads and deletes the attributes
record in one MetaStore transaction, failing with no-such-entry when absent;
a remote delete is issued unconditionally with the stored id, whether or not
that id is the empty-id sentinel; when the remote delete fails the call
returns an I/O error while the local metadata record remains deleted. -/
theorem C5_unlink_spec_amended (s : Store) (remoteOk : List Byte → Bool)
    (name : FsPath) :
    (storeGet s name = none →
      DriveFileSystem.Unlink s remoteOk name = ⟨.ENOENT, s, []⟩) ∧
    (∀ a, storeGet s name = some a →
      (DriveFileSystem.Unlink s remoteOk name).store = storeDelete s name ∧
      storeGet (DriveFileSystem.Unlink s remoteOk name).store name = none ∧
      (DriveFileSystem.Unlink s remoteOk name).remoteDeletes = [a.id] ∧
      (DriveFileSystem.Unlink s remoteOk name).status =
        (if remoteOk a.id then .OK else .Eio)) := by
  constructor
  · intro h
    unfold DriveFileSystem.Unlink DB.GetAndDeleteAttributes
    rw [h]
  · intro a ha
    have hu : DriveFileSystem.Unlink s remoteOk name =
        if remoteOk a.id then ⟨.OK, storeDelete s name, [a.id]⟩
        else ⟨.Eio, storeDelete s name, [a.id]⟩ := by
      unfold DriveFileSystem.Unlink DB.GetAndDeleteAttributes
      rw [ha]
    by_cases hr : remoteOk a.id = true
    · rw [hu, if_pos hr]
      refine ⟨rfl, ?_, rfl, by rw [if_pos hr]⟩
      rw [storeGet_delete, if_pos rfl]
    · rw [hu, if_neg hr]
      refine ⟨rfl, ?_, rfl, by rw [if_neg hr]⟩
      rw [storeGet_delete, if_pos rfl]

/-- The attributes of a freshly created, never uploaded file: the id is the
empty-id sentinel. -/
def attrEmptyId : Attributes := ⟨EmptyId, 0, true, 420, false⟩

/-- Claim C5 counterexample: unlinking a file whose id is the empty-id
sentinel (no remote object exists yet) still issues a remote delete carrying
the sentinel id, where the claim requires a remote delete only for a
non-empty remote id; the failing remote delete turns the whole call into EIO
while the local record is already gone. -/
theorem C5_unlink_counterexample :
    DriveFileSystem.Unlink [(['f'], attrEmptyId)] (fun _ => false) ['f'] =
      ⟨.Eio, [], [EmptyId]⟩ := by
  rfl

/-- Witness for claim C5 at a concrete store, remote oracle and path. -/
theorem C5_unlink_spec_witness :
    (DriveFileSystem.Unlink [(['f'], attrA)] (fun _ => true) ['f']).store =
      storeDelete [(['f'], attrA)] ['f'] ∧
    storeGet (DriveFileSystem.Unlink [(['f'], attrA)] (fun _ => true) ['f']).store
      ['f'] = none ∧
    (DriveFileSystem.Unlink [(['f'], attrA)] (fun _ => true) ['f']).remoteDeletes =
      [attrA.id] ∧
    (DriveFileSystem.Unlink [(['f'], attrA)] (fun _ => true) ['f']).status =
      (if (fun _ => true : List Byte → Bool) attrA.id then .OK else .Eio) :=
  (C5_unlink_spec_amended [(['f'], attrA)] (fun _ => true) ['f']).2 attrA rfl

/-- The attributes of a regular file used as the C6 failing input. -/
def regAttr : Attributes := ⟨[3], 5, true, 420, false⟩

/-- Claim C6: the claim states that when rmdir returns the not-a-directory
error the attributes record is not deleted; the code instead deletes the
record through GetAndDeleteAttributes before the regular-file test, as this
evaluation at the failing input shows: rmdir on a store holding one regular
file f returns ENOTDIR and the resulting store no longer holds the record. -/
theorem C6_rmdir_deletes_on_enotdir :
    DriveFileSystem.Rmdir [(['f'], regAttr)] ['f'] = (.ENOTDIR, []) ∧
    storeGet (DriveFileSystem.Rmdir [(['f'], regAttr)] ['f']).2 ['f'] = none :=
  ⟨rfl, rfl⟩

/-- One entry of the write cache file table (refcountedFile,
src/unnamed/part_008:748-754): the remote id, the reference count, the dirty
flag, and whether the remote bytes were fetched. The local file handle is
not modelled; the upload actions below stand for what is written through it. -/
structure RefcountedFile where
  id : List Byte
  count : Nat
  dirty : Bool
  fetched : Bool
  deriving DecidableEq

/-- The files map of LocalFileCache (src/unnamed/part_008:758-772). -/
abbrev Cache := List (FsPath × RefcountedFile)

def cacheGet (c : Cache) (name : FsPath) : Option RefcountedFile :=
  (c.find? (fun e => e.1 == name)).map (fun e => e.2)

def cacheSet (c : Cache) (name : FsPath) (r : RefcountedFile) : Cache :=
  (name, r) :: c.filter (fun e => e.1 != name)

def cacheDelete (c : Cache) (name : FsPath) : Cache :=
  c.filter (fun e => e.1 != name)

/-- LocalFileCache.Open (src/unnamed/part_008:803-850): the first reference
inserts an entry with count 1, not dirty, not fetched; every later reference
increments the count and shares the entry. -/
def LocalFileCache.Open (c : Cache) (name : FsPath) (id : List Byte) : Cache :=
  match cacheGet c name with
  | none => cacheSet c name ⟨id, 1, false, false⟩
  | some r => cacheSet c name { r with count := r.count + 1 }

/-- LocalFileCache.MarkDirty (src/unnamed/part_008:785-799): set the dirty
flag; panics (none) when the entry is missing. -/
def LocalFileCache.MarkDirty (c : Cache) (name : FsPath) : Option Cache :=
  match cacheGet c name with
  | none => none
  | some r => some (cacheSet c name { r with dirty := true })

/-- The remote upload calls LocalFileCache.Release can issue
(src/unnamed/part_008:897-914): create a new remote object, or update the
object with the given id. -/
inductive UploadAction where
  | create (name : FsPath)
  | update (id : List Byte)
  deriving DecidableEq

/-- LocalFileCache.Release (src/unnamed/part_008:861-938): decrement the
reference count, dropping the map entry when it reaches zero; then, whenever
the dirty flag is set - the code tests only refs.dirty here, not the count -
upload the working copy: create on the remote when the id is the empty-id
sentinel, update otherwise. Panics (none) when the entry is missing. The
result carries the new cache, the issued uploads, and the reference count
after the decrement; the SetId and SetSize database writes that follow an
upload are not needed by the claims and are left out. -/
def LocalFileCache.Release (c : Cache) (name : FsPath) :
    Option (Cache × List UploadAction × Nat) :=
  match cacheGet c name with
  | none => none
  | some r =>
    let newCount := r.count - 1
    let c2 := if newCount = 0 then cacheDelete c name
      else cacheSet c name { r with count := newCount }
    let acts := if r.dirty then
        (if r.id == EmptyId then [UploadAction.create name]
         else [UploadAction.update r.id])
      else []
    some (c2, acts, newCount)

/-- A concrete non-sentinel remote id. -/
def idW : List Byte := List.replicate 33 1

/-- Claim C1: the claim states that an upload happens only on the release
that takes the refcount to zero and finds the dirty flag set. The code
uploads whenever the dirty flag is set, regardless of the remaining count:
the enclosing comment in Release states the intended rule (upload when there
are no more references and the file is dirty), but the branch tests only
refs.dirty. Evaluation at the failing input: open the same path twice, mark
it dirty, release once; the release leaves refcount 1 yet issues an update
upload (and, since dirty stays set, the second release uploads again, so one
refcount-zero event sees two uploads). -/
theorem C1_release_uploads_while_refcount_positive :
    (LocalFileCache.MarkDirty
        (LocalFileCache.Open (LocalFileCache.Open [] ['p'] idW) ['p'] idW)
        ['p']).bind (fun c => LocalFileCache.Release c ['p']) =
      some ([(['p'], ⟨idW, 1, true, false⟩)], [UploadAction.update idW], 1) := by
  rfl

/-- An upload record (metadb.Upload, src/unnamed/part_008:36-41). -/
structure Upload where
  id : List Byte
  path : FsPath
  deriving DecidableEq

/-- The durable state of the metadata database relevant to the upload queue:
the persisted pending uploads. -/
structure DBState where
  uploadQueue : List Upload
  deriving DecidableEq

/-- DB.AddToUploadQueue (src/unnamed/part_008:452-455): a stub - it logs and
returns nil without writing anything; the durable state is unchanged. -/
def DB.AddToUploadQueue (d : DBState) (u : Upload) : DBState := d

abbrev UploadList := List Upload

/-- DB.GetUploadQueue (src/unnamed/part_008:457-459): a stub - it returns nil
regardless of the durable state. -/
def DB.GetUploadQueue (d : DBState) : UploadList := []

/-- The Syncer (src/api/syncer.go:11-23): the database handle and the
in-memory upload channel, modelled by the list of its queued elements. -/
structure Syncer where
  db : DBState
  queue : List Upload
  deriving DecidableEq

/-- NewSyncer (src/api/syncer.go:25-39): replay the persisted queue into a
fresh channel. -/
def NewSyncer (d : DBState) : Syncer :=
  ⟨d, DB.GetUploadQueue d⟩

/-- Syncer.EnqueueFile (src/api/syncer.go:71-91): persist through
DB.AddToUploadQueue first, then notify the channel. -/
def Syncer.EnqueueFile (s : Syncer) (u : Upload) : Syncer :=
  ⟨DB.AddToUploadQueue s.db u, s.queue ++ [u]⟩

/-- A process crash and restart: the in-memory channel is lost, the durable
database state survives, and NewSyncer replays from it. -/
def restartSyncer (s : Syncer) : Syncer :=
  NewSyncer s.db

/-- Claim C2: the claim states that the Upload record is persisted in the
MetaStore durable log before the channel is notified, and that on startup
every persisted entry is replayed, so a pending upload survives a crash.
EnqueueFile does call DB.AddToUploadQueue before the channel send, and
NewSyncer does load DB.GetUploadQueue - but both database methods are stubs
that persist and return nothing, against the stated intent of the comments
in EnqueueFile and NewSyncer. Nothing survives: for every database state and
upload, the durable state is unchanged by an enqueue, the persisted queue
reads back empty, and after a crash and restart the replayed channel is
empty, so the enqueued upload is lost. -/
theorem C2_enqueue_not_persisted (d : DBState) (u : Upload) :
    DB.AddToUploadQueue d u = d ∧
    DB.GetUploadQueue d = [] ∧
    (restartSyncer ((NewSyncer d).EnqueueFile u)).queue = [] :=
  ⟨rfl, rfl, rfl⟩

/-- Witness for claim C4: the membership characterisation applied to the
concrete listing of a with keys a and ab. -/
theorem C4_list_spec_witness :
    ⟨['b'], attrB⟩ ∈ ([⟨['b'], attrB⟩] : Entries) ↔
      ∃ k a t, (k, a) ∈ ([(['a'], attrA), (['a','b'], attrB)] : Store) ∧
        k = ['a'] ++ t ∧ t ≠ [] ∧ (dropSep t).contains sepChar = false ∧
        Entry.mk ['b'] attrB = ⟨dropSep t, a⟩ :=
  (C4_list_spec_amended [(['a'], attrA), (['a','b'], attrB)] ['a']).1
    [⟨['b'], attrB⟩] rfl ⟨['b'], attrB⟩

/-- The outcome tag of FileReader.Read (src/api/file_reader.go): io.EOF,
io.ErrUnexpectedEOF (io.ReadFull stopped short of the buffer), or a failed
api call; none stands for the nil error. -/
inductive ReadErr where
  | eof
  | unexpectedEof
  | apiError
  deriving DecidableEq

/-- The state of a FileReader (src/api/file_reader.go:32-47): position in the
file, file length, request size, and the bytes left in the active http
response body when one is open. Counts are integers, as the Go int64 fields. -/
structure FileReaderState where
  position : Int
  length : Int
  readSize : Int
  body : Option Nat
  deriving DecidableEq

/-- NewFileReader (src/api/file_reader.go:49-68): request 512 MiB per call
under the sequential hypothesis and 4 MiB under the random one; no body yet. -/
def NewFileReader (length position : Int) (sequential : Bool) : FileReaderState :=
  ⟨position, length, if sequential then 536870912 else 4194304, none⟩

/-- FileReader.Read (src/api/file_reader.go:93-158), one fuel unit per pass
of the Go for loop. Each pass: return (totalRead, nil) when the buffer is
full; return (totalRead, io.EOF) when position has reached length; open a
ranged request for min(remaining, readSize) bytes when no body is active
(the remote model: the request succeeds exactly when the inclusive range
lies inside the file, and its body then holds exactly that many bytes);
io.ReadFull then moves min(p, body) bytes: a body smaller than the buffer
yields ErrUnexpectedEOF which the code returns as an error, an already
exhausted body yields io.EOF upon which the body is closed and the loop
continues, and otherwise the buffer is filled and the loop continues. -/
def FileReader.readLoop : Nat → FileReaderState → Nat → Nat →
    Nat × Option ReadErr × FileReaderState
  | 0, st, _, totalRead => (totalRead, some .apiError, st)
  | fuel + 1, st, p, totalRead =>
    if p = 0 then (totalRead, none, st)
    else if st.length - st.position = 0 then (totalRead, some .eof, st)
    else
      let bodyR : Except ReadErr Nat :=
        match st.body with
        | some b => .ok b
        | none =>
          let requestSize := min (st.length - st.position) st.readSize
          if 1 ≤ requestSize ∧ 0 ≤ st.position ∧
              st.position + requestSize ≤ st.length
          then .ok requestSize.toNat
          else .error .apiError
      match bodyR with
      | .error e => (totalRead, some e, st)
      | .ok b =>
        let n := min p b
        let st2 : FileReaderState :=
          { st with position := st.position + n, body := some (b - n) }
        if b = 0 then
          FileReader.readLoop fuel { st2 with body := none } (p - n) (totalRead + n)
        else if b < p then
          (totalRead + n, some .unexpectedEof, st2)
        else
          FileReader.readLoop fuel st2 (p - n) (totalRead + n)

/-- FileReader.Read with enough fuel for any call: every pass either returns
or consumes buffer bytes, except a pass that closes an exhausted body, which
is followed by a consuming or returning pass. -/
def FileReader.Read (st : FileReaderState) (p : Nat) :
    Nat × Option ReadErr × FileReaderState :=
  FileReader.readLoop (2 * p + 2) st p 0

theorem readLoop_at_eof (fuel : Nat) (st : FileReaderState) (p totalRead : Nat)
    (h : st.position = st.length) (hp : 0 < p) :
    FileReader.readLoop (fuel + 1) st p totalRead = (totalRead, some .eof, st) := by
  simp only [FileReader.readLoop]
  rw [if_neg (Nat.pos_iff_ne_zero.mp hp)]
  rw [if_pos (show st.length - st.position = 0 by rw [h, sub_self])]

/-- Claim C8 (amended): a Read call that starts with the position equal to
the file length (the loop observes zero remaining bytes with the buffer not
yet full) returns a short read of the bytes copied so far, which is zero,
together with the io.EOF sentinel, the conventional clean end-of-stream
signal rather than an I/O error; a read whose buffer extends past the bytes
of the response body instead propagates ErrUnexpectedEOF, an error (see the
counterexample). -/
theorem C8_read_at_eof_amended (st : FileReaderState) (p : Nat)
    (h : st.position = st.length) (hp : 0 < p) :
    FileReader.Read st p = (0, some .eof, st) := by
  rw [FileReader.Read, show 2 * p + 2 = (2 * p + 1) + 1 from rfl,
    readLoop_at_eof (2 * p + 1) st p 0 h hp]

/-- Witness for claim C8: a reader positioned at the end of a 5 byte file,
read into a 3 byte buffer. -/
theorem C8_read_at_eof_witness :
    FileReader.Read (NewFileReader 5 5 false) 3 =
      (0, some ReadErr.eof, NewFileReader 5 5 false) :=
  C8_read_at_eof_amended (NewFileReader 5 5 false) 3 rfl (by decide)

/-- Claim C8 counterexample: reading 7 bytes of a 5 byte file from position
0 reaches the end of the file with the destination buffer not yet full (the
position after the call equals the length and only 5 bytes were copied), yet
Read reports io.ErrUnexpectedEOF to its caller: the ranged request covers
the 5 remaining bytes, io.ReadFull stops short of the 7 byte buffer, and the
code returns every non-EOF error. The claim asserts no error is reported. -/
theorem C8_read_unexpected_eof_counterexample :
    FileReader.Read (NewFileReader 5 0 false) 7 =
      (5, some ReadErr.unexpectedEof, ⟨5, 5, 4194304, some 0⟩) := by
  rfl

/-- FileReader.ReadAt (src/api/file_reader.go:71-90): the Range header sent
for a request of size bytes at offset off; byte ranges are inclusive, so the
end of the range is start + size - 1. Offsets are int64 in Go. -/
def FileReader.rangeHeader (off size : Int) : String :=
  "bytes=" ++ toString off ++ "-" ++ toString (off + size - 1)

/-- DriveApi.ReadAt (src/unnamed/part_002:216-232): a zero byte read is
rejected before any request is sent; otherwise the same inclusive Range
header is produced. Sizes and offsets are uint64 in Go. -/
def DriveApi.readAtHeader (size off : Nat) : Option String :=
  if size = 0 then none
  else some ("bytes=" ++ toString off ++ "-" ++ toString (off + size - 1))

/-- The number of bytes the inclusive HTTP byte range bytes=a-b covers. -/
def rangeByteCount (a b : Nat) : Nat := b - a + 1

/-- Claim C9: for every ranged download of size bytes at offset off with
size at least one, the Range header is exactly bytes=off-(off+size-1), the
inclusive end being start + size - 1, and such an inclusive range covers
exactly size bytes; the same holds of the int64 arithmetic of
FileReader.ReadAt, where the inclusive count (end - start + 1) equals size
identically. -/
theorem C9_range_header (off size : Nat) (offI sizeI : Int) (h : 1 ≤ size) :
    (DriveApi.readAtHeader size off =
       some ("bytes=" ++ toString off ++ "-" ++ toString (off + size - 1)) ∧
     rangeByteCount off (off + size - 1) = size) ∧
    (FileReader.rangeHeader offI sizeI =
       "bytes=" ++ toString offI ++ "-" ++ toString (offI + sizeI - 1) ∧
     (offI + sizeI - 1) - offI + 1 = sizeI) := by
  refine ⟨⟨?_, ?_⟩, rfl, by ring⟩
  · rw [DriveApi.readAtHeader, if_neg (by omega)]
  · rw [rangeByteCount]
    omega

/-- Witness for claim C9 at offset 10 and size 4 (range bytes=10-13). -/
theorem C9_range_header_witness :
    (DriveApi.readAtHeader 4 10 =
       some ("bytes=" ++ toString 10 ++ "-" ++ toString (10 + 4 - 1)) ∧
     rangeByteCount 10 (10 + 4 - 1) = 4) ∧
    (FileReader.rangeHeader 10 4 =
       "bytes=" ++ toString (10 : Int) ++ "-" ++ toString ((10 : Int) + 4 - 1) ∧
     ((10 : Int) + 4 - 1) - 10 + 1 = 4) :=
  C9_range_header 10 4 10 4 (by decide)

abbrev ByteList := List Byte

/-- The bolt content bucket (src/unnamed/part_008:25-26): inline file bytes
keyed by path. -/
abbrev ContentStore := List (FsPath × ByteList)

/-- DB.GetFile (src/unnamed/part_008:387-405): copy the stored content out of
the transaction; a missing key yields the empty byte slice (bolt Get returns
nil and the copy of nil is empty), and the View closure never returns an
error. -/
def DB.GetFile (cs : ContentStore) (p : FsPath) : ByteList :=
  ((cs.find? (fun e => e.1 == p)).map (fun e => e.2)).getD []

/-- The Go slice expression content[off:]: the suffix when off is at most the
length, and a panic (none) when off exceeds it. -/
def goSliceFrom (content : List Byte) (off : Nat) : Option (List Byte) :=
  if off ≤ content.length then some (content.drop off) else none

/-- DbFile.Read (src/drive_file.go:264-274): read the inline content from the
database and return content[off:] wrapped for fuse; none is the out-of-range
panic. The error branch after GetFile is dead, because GetFile always
succeeds. -/
def DbFile.Read (cs : ContentStore) (name : FsPath) (off : Nat) :
    Option (List Byte) :=
  goSliceFrom (DB.GetFile cs name) off

/-- Claim C10: for a read of an inline file at offset off, when off is at
most the stored content length the call returns the suffix of the content
from off (the empty result when off equals the length), and when off exceeds
the length the slice expression content[off:] panics instead of returning an
error or a short read. -/
theorem C10_dbfile_read_spec (cs : ContentStore) (name : FsPath) (off : Nat) :
    (off ≤ (DB.GetFile cs name).length →
      DbFile.Read cs name off = some ((DB.GetFile cs name).drop off)) ∧
    (off = (DB.GetFile cs name).length → DbFile.Read cs name off = some []) ∧
    ((DB.GetFile cs name).length < off → DbFile.Read cs name off = none) := by
  refine ⟨?_, ?_, ?_⟩
  · intro h
    rw [DbFile.Read, goSliceFrom, if_pos h]
  · intro h
    rw [DbFile.Read, goSliceFrom, if_pos h.le, h, List.drop_length]
  · intro h
    rw [DbFile.Read, goSliceFrom, if_neg (by omega)]

/-- The content store used by the C10 witness: one inline file of 3 bytes. -/
def cs10 : ContentStore := [(['f'], [10, 20, 30])]

/-- Witness for claim C10: an in-range read at offset 2 of the 3 byte inline
file. -/
theorem C10_dbfile_read_witness :
    DbFile.Read cs10 ['f'] 2 = some ((DB.GetFile cs10 ['f']).drop 2) :=
  (C10_dbfile_read_spec cs10 ['f'] 2).1 (by decide)

end Fusedrive
